import Mathlib

/-!
Verification of the lamb term-rewriting engine: a shallow embedding of the
classic lambda-term model, the locally-nameless conversion, the open/shift
substitution primitives, the normal-order reduction strategy, the bounded
reduction drivers and the binding rewriter, with theorems settling the
specified properties.

Sources embedded: src/term.rs (Term, Display), src/term/reduce.rs
(Var, LocalNamelessTerm, open, shifted, to_classic, to_local_nameless,
rebind, BetaReduce drivers), src/term/reduce/normal.rs (Normal strategy).
-/

namespace Lamb

/-- `Term<T>` from src/term.rs: a lambda-calculus term, generic over the
identifier type. -/
inductive Term (T : Type) where
  | var : T → Term T
  | abs : T → Term T → Term T
  | app : Term T → Term T → Term T
deriving DecidableEq, Repr

/-- `Var<T>` from src/term/reduce.rs: a variable wrapper marking it free
(with its original identifier) or bound (with its De Bruijn index). -/
inductive Var (T : Type) where
  | bound : Nat → Var T
  | free : T → Var T
deriving DecidableEq, Repr

/-- `LocalNamelessTerm<T> = Term<Var<T>>` from src/term/reduce.rs. -/
abbrev LNTerm (T : Type) := Term (Var T)

/-- `LocalNamelessError` from src/term/reduce.rs. -/
inductive LocalNamelessError where
  | invalidVarIndex : Nat → LocalNamelessError
  | invalidAbsParam : Nat → LocalNamelessError
deriving DecidableEq, Repr

/-- `ReducedTerm<T>` from src/term/reduce.rs: a reduced term paired with
the number of reduction steps performed. -/
structure ReducedTerm (T : Type) where
  count : Nat
  term : Term T
deriving DecidableEq, Repr

variable {T : Type}

/-- `vars.iter().position(|&param| param == var)` on the binder stack
(front of the `VecDeque` is the head of the list). -/
def position [DecidableEq T] : List T → T → Option Nat
  | [], _ => none
  | x :: xs, v => if x = v then some 0 else (position xs v).map Nat.succ

/-- `Term::to_local_nameless` from src/term/reduce.rs lines 241-255: the
binder stack `vars` has the innermost binder at its front. -/
def toLocalNameless [DecidableEq T] : Term T → List T → LNTerm T
  | .var v, vars =>
      match position vars v with
      | some index => .var (.bound index)
      | none => .var (.free v)
  | .abs param body, vars => .abs (.free param) (toLocalNameless body (param :: vars))
  | .app func arg, vars => .app (toLocalNameless func vars) (toLocalNameless arg vars)

/-- `LocalNamelessTerm::to_classic` from src/term/reduce.rs lines 135-153. -/
def toClassic : LNTerm T → List T → Except LocalNamelessError (Term T)
  | .var (.bound index), vars =>
      match vars[index]? with
      | some v => .ok (.var v)
      | none => .error (.invalidVarIndex index)
  | .var (.free v), _ => .ok (.var v)
  | .abs (.bound index) _, _ => .error (.invalidAbsParam index)
  | .abs (.free param) body, vars =>
      match toClassic body (param :: vars) with
      | .ok b => .ok (.abs param b)
      | .error e => .error e
  | .app func arg, vars =>
      match toClassic func vars, toClassic arg vars with
      | .ok f, .ok a => .ok (.app f a)
      | .error e, _ => .error e
      | _, .error e => .error e

/-- `LocalNamelessTerm::shifted` from src/term/reduce.rs lines 122-133. -/
def shifted : LNTerm T → Nat → Nat → LNTerm T
  | .var (.bound index), depth, amount =>
      if index ≥ depth then .var (.bound (index + amount)) else .var (.bound index)
  | .var (.free v), _, _ => .var (.free v)
  | .abs param body, depth, amount => .abs param (shifted body (depth + 1) amount)
  | .app func arg, depth, amount => .app (shifted func depth amount) (shifted arg depth amount)

/-- `LocalNamelessTerm::open` from src/term/reduce.rs lines 106-120
(`open` is a Lean keyword, hence the name `openAt`). -/
def openAt : LNTerm T → Nat → LNTerm T → LNTerm T
  | .var (.bound index), depth, replacement =>
      if index = depth then shifted replacement 0 depth
      else if index > depth then .var (.bound (index - 1))
      else .var (.bound index)
  | .var (.free v), _, _ => .var (.free v)
  | .abs param body, depth, replacement => .abs param (openAt body (depth + 1) replacement)
  | .app func arg, depth, replacement =>
      .app (openAt func depth replacement) (openAt arg depth replacement)

/-- `Normal::beta_reduce_step` from src/term/reduce/normal.rs lines 15-34,
in state-passing style: returns the term after the in-place mutation and the
boolean the Rust function returns.  The Rust `match` has an `Abs` arm and a
catch-all on `func`; the catch-all is split into its `Var` and `App` cases. -/
def betaReduceStep : LNTerm T → LNTerm T × Bool
  | .var v => (.var v, false)
  | .abs param body =>
      let r := betaReduceStep body
      (.abs param r.1, r.2)
  | .app (.abs _ body) arg => (openAt (betaReduceStep body).1 0 arg, true)
  | .app (.var v) arg =>
      let rf := betaReduceStep (Term.var v)
      let ra := betaReduceStep arg
      (.app rf.1 ra.1, rf.2 || ra.2)
  | .app (.app f1 f2) arg =>
      let rf := betaReduceStep (Term.app f1 f2)
      let ra := betaReduceStep arg
      (.app rf.1 ra.1, rf.2 || ra.2)

/-- `LocalNamelessTerm::rebind` from src/term/reduce.rs lines 160-172; the
`HashMap` is modelled by its lookup function. -/
def rebind (binds : T → Option (LNTerm T)) : LNTerm T → LNTerm T
  | .var (.bound index) => .var (.bound index)
  | .var (.free v) =>
      match binds v with
      | some t => t
      | none => .var (.free v)
  | .abs param body => .abs param (rebind binds body)
  | .app func arg => .app (rebind binds func) (rebind binds arg)

/-- `BetaReduce::beta_reduce_while` from src/term/reduce.rs lines 32-38
specialised to the predicate `count < limit`, i.e.
`BetaReduce::beta_reduce_limit` (lines 41-43), generic over the strategy's
`beta_reduce_step` as the trait is: before each step the predicate
`count < limit` is checked, so the recursion is on the remaining budget. -/
def reduceLimit (s : LNTerm T → LNTerm T × Bool) : LNTerm T → Nat → LNTerm T × Nat
  | t, 0 => (t, 0)
  | t, n + 1 =>
      let r := s t
      if r.2 then
        let rest := reduceLimit s r.1 n
        (rest.1, rest.2 + 1)
      else (r.1, 0)

/-- `Term::beta_reduced_limit` from src/term/reduce.rs lines 233-239,
generic over the strategy: convert to locally-nameless form, reduce with the
limit, convert back.  The Rust code unwraps the conversion result; the
embedding keeps the `Except` so that the unreachability of the error case is
a provable statement rather than an assumption. -/
def betaReducedLimitWith [DecidableEq T] (s : LNTerm T → LNTerm T × Bool)
    (t : Term T) (limit : Nat) : Except LocalNamelessError (ReducedTerm T) :=
  let r := reduceLimit s (toLocalNameless t []) limit
  match toClassic r.1 [] with
  | .ok c => .ok ⟨r.2, c⟩
  | .error e => .error e

/-- `Term::beta_reduced_limit` with the `Normal` strategy. -/
def betaReducedLimit [DecidableEq T] (t : Term T) (limit : Nat) :
    Except LocalNamelessError (ReducedTerm T) :=
  betaReducedLimitWith betaReduceStep t limit

/-- Iterating the in-place mutation of `beta_reduce_step` k times: after k
iterations of any of the drivers the term is `stepIter k` of the initial
locally-nameless term. -/
def stepIter : Nat → LNTerm T → LNTerm T
  | 0, t => t
  | k + 1, t => stepIter k (betaReduceStep t).1

/-- `impl Display for Term` from src/term.rs lines 47-60, for string
identifiers: an abstraction renders as `λ<param>. <body>`; an application
as `<func> <arg>` with the four parenthesisation arms of the Rust `match`
on `(func, arg)`. -/
def dispTerm : Term String → String
  | .var v => v
  | .abs param body => "λ" ++ param ++ ". " ++ dispTerm body
  | .app func arg =>
      match func, arg with
      | .abs p b, .abs q c => "(" ++ dispTerm (.abs p b) ++ ") (" ++ dispTerm (.abs q c) ++ ")"
      | .abs p b, .app a1 a2 => "(" ++ dispTerm (.abs p b) ++ ") (" ++ dispTerm (.app a1 a2) ++ ")"
      | .abs p b, a => "(" ++ dispTerm (.abs p b) ++ ") " ++ dispTerm a
      | f, .abs q c => dispTerm f ++ " (" ++ dispTerm (.abs q c) ++ ")"
      | f, .app a1 a2 => dispTerm f ++ " (" ++ dispTerm (.app a1 a2) ++ ")"
      | f, a => dispTerm f ++ " " ++ dispTerm a

/-- Whether a term is an abstraction (the condition of the Rust `match`
arms that parenthesise the function side of an application). -/
def isAbs : Term T → Bool
  | .abs _ _ => true
  | _ => false

/-- Whether a term is an abstraction or an application (the condition of
the Rust `match` arms that parenthesise the argument side). -/
def isAbsOrApp : Term T → Bool
  | .abs _ _ => true
  | .app _ _ => true
  | _ => false

/-- The function side of an application as displayed: parenthesised
exactly when it is an abstraction. -/
def dispFunc (f : Term String) : String :=
  if isAbs f then "(" ++ dispTerm f ++ ")" else dispTerm f

/-- The argument side of an application as displayed: parenthesised
exactly when it is an abstraction or an application. -/
def dispArg (a : Term String) : String :=
  if isAbsOrApp a then "(" ++ dispTerm a ++ ")" else dispTerm a

/-- Well-formedness of a locally-nameless term under `n` enclosing binders:
every `Bound k` is enclosed in at least `k + 1` abstractions (counting the
`n` outer ones) and every `Abs` binder slot is `Free`. -/
def wf : Nat → LNTerm T → Bool
  | n, .var (.bound k) => decide (k < n)
  | _, .var (.free _) => true
  | _, .abs (.bound _) _ => false
  | n, .abs (.free _) body => wf (n + 1) body
  | n, .app func arg => wf n func && wf n arg

/-! ### Helper lemmas -/

theorem position_get [DecidableEq T] :
    ∀ (l : List T) (v : T) (i : Nat), position l v = some i → l[i]? = some v := by
  intro l
  induction l with
  | nil => intro v i h; simp [position] at h
  | cons x xs ih =>
      intro v i h
      by_cases hx : x = v
      · simp [position, hx] at h
        subst h
        simp [hx]
      · simp [position, hx] at h
        obtain ⟨j, hj, rfl⟩ := h
        simpa using ih v j hj

theorem position_lt_length [DecidableEq T] (l : List T) (v : T) (i : Nat)
    (h : position l v = some i) : i < l.length := by
  have := position_get l v i h
  exact (List.getElem?_eq_some.mp this).1

theorem toClassic_toLocalNameless [DecidableEq T] (t : Term T) :
    ∀ vars, toClassic (toLocalNameless t vars) vars = .ok t := by
  induction t with
  | var v =>
      intro vars
      simp only [toLocalNameless]
      cases hp : position vars v with
      | some i => simp [toClassic, position_get vars v i hp]
      | none => simp [toClassic]
  | abs p b ih => intro vars; simp [toLocalNameless, toClassic, ih (p :: vars)]
  | app f a ihf iha => intro vars; simp [toLocalNameless, toClassic, ihf vars, iha vars]

theorem betaReduceStep_false : ∀ (t : LNTerm T),
    (betaReduceStep t).2 = false → (betaReduceStep t).1 = t := by
  intro t
  induction t with
  | var v => intro _; rfl
  | abs p b ih =>
      intro h
      simp only [betaReduceStep] at h ⊢
      rw [ih h]
  | app f a ihf iha =>
      cases f with
      | var v =>
          intro h
          simp only [betaReduceStep, Bool.or_eq_false_iff] at h ⊢
          rw [iha h.2]
      | abs p b => intro h; simp [betaReduceStep] at h
      | app f1 f2 =>
          intro h
          simp only [betaReduceStep, Bool.or_eq_false_iff] at h ⊢
          rw [ihf h.1, iha h.2]

theorem wf_mono : ∀ (t : LNTerm T) (n m : Nat), n ≤ m → wf n t = true → wf m t = true := by
  intro t
  induction t with
  | var v =>
      intro n m hnm h
      cases v with
      | bound k => simp only [wf, decide_eq_true_eq] at h ⊢; omega
      | free _ => simp [wf]
  | abs p b ih =>
      intro n m hnm h
      cases p with
      | bound _ => simp [wf] at h
      | free _ =>
          simp only [wf] at h ⊢
          exact ih (n + 1) (m + 1) (by omega) h
  | app f a ihf iha =>
      intro n m hnm h
      simp only [wf, Bool.and_eq_true] at h ⊢
      exact ⟨ihf n m hnm h.1, iha n m hnm h.2⟩

theorem shifted_wf : ∀ (t : LNTerm T) (m d a : Nat),
    wf m t = true → wf (m + a) (shifted t d a) = true := by
  intro t
  induction t with
  | var v =>
      intro m d a h
      cases v with
      | bound k =>
          simp only [wf, decide_eq_true_eq] at h
          simp only [shifted]
          by_cases hk : k ≥ d <;> simp only [hk, if_true, if_false, wf, decide_eq_true_eq] <;> omega
      | free _ => simp [shifted, wf]
  | abs p b ih =>
      intro m d a h
      cases p with
      | bound _ => simp [wf] at h
      | free _ =>
          simp only [wf, shifted] at h ⊢
          have := ih (m + 1) (d + 1) a h
          have harr : m + 1 + a = m + a + 1 := by omega
          rwa [harr] at this
  | app f a ihf iha =>
      intro m d amt h
      simp only [wf, Bool.and_eq_true, shifted] at h ⊢
      exact ⟨ihf m d amt h.1, iha m d amt h.2⟩

theorem openAt_wf : ∀ (t : LNTerm T) (n d : Nat) (r : LNTerm T),
    wf (n + 1) t = true → d ≤ n → wf (n - d) r = true → wf n (openAt t d r) = true := by
  intro t
  induction t with
  | var v =>
      intro n d r ht hd hr
      cases v with
      | bound k =>
          simp only [wf, decide_eq_true_eq] at ht
          simp only [openAt]
          by_cases hk : k = d
          · simp only [hk, if_true]
            have := shifted_wf r (n - d) 0 d hr
            rwa [Nat.sub_add_cancel hd] at this
          · simp only [hk, if_false]
            by_cases hgt : k > d <;>
              simp only [hgt, if_true, if_false, wf, decide_eq_true_eq] <;> omega
      | free _ => simp [openAt, wf]
  | abs p b ih =>
      intro n d r ht hd hr
      cases p with
      | bound _ => simp [wf] at ht
      | free _ =>
          simp only [wf, openAt] at ht ⊢
          refine ih (n + 1) (d + 1) r ht (by omega) ?_
          have : n + 1 - (d + 1) = n - d := by omega
          rwa [this]
  | app f a ihf iha =>
      intro n d r ht hd hr
      simp only [wf, Bool.and_eq_true, openAt] at ht ⊢
      exact ⟨ihf n d r ht.1 hd hr, iha n d r ht.2 hd hr⟩

theorem betaReduceStep_wf : ∀ (t : LNTerm T) (n : Nat),
    wf n t = true → wf n ((betaReduceStep t).1) = true := by
  intro t
  induction t with
  | var v => intro n h; exact h
  | abs p b ih =>
      intro n h
      cases p with
      | bound _ => simp [wf] at h
      | free _ =>
          simp only [wf, betaReduceStep] at h ⊢
          exact ih (n + 1) h
  | app f a ihf iha =>
      intro n h
      cases f with
      | var v =>
          simp only [wf, Bool.and_eq_true, betaReduceStep] at h ⊢
          exact ⟨h.1, iha n h.2⟩
      | abs p b =>
          cases p with
          | bound _ => simp [wf] at h
          | free _ =>
              simp only [wf, Bool.and_eq_true, betaReduceStep] at h ⊢
              have hb : wf (n + 1) ((betaReduceStep b).1) = true := by
                have := ihf n
                simp only [wf, betaReduceStep] at this
                exact this h.1
              exact openAt_wf ((betaReduceStep b).1) n 0 a hb (by omega)
                (by simpa using h.2)
      | app f1 f2 =>
          have h' : (wf n (Term.app f1 f2) && wf n a) = true := h
          rw [Bool.and_eq_true] at h'
          have goal' : (wf n ((betaReduceStep (Term.app f1 f2)).1) &&
              wf n ((betaReduceStep a).1)) = true := by
            rw [Bool.and_eq_true]
            exact ⟨ihf n h'.1, iha n h'.2⟩
          exact goal'

theorem toLocalNameless_wf [DecidableEq T] : ∀ (t : Term T) (vars : List T),
    wf vars.length (toLocalNameless t vars) = true := by
  intro t
  induction t with
  | var v =>
      intro vars
      simp only [toLocalNameless]
      cases hp : position vars v with
      | some i =>
          simp only [wf, decide_eq_true_eq]
          exact position_lt_length vars v i hp
      | none => simp [wf]
  | abs p b ih =>
      intro vars
      simp only [toLocalNameless, wf]
      exact ih (p :: vars)
  | app f a ihf iha =>
      intro vars
      simp only [toLocalNameless, wf, Bool.and_eq_true]
      exact ⟨ihf vars, iha vars⟩

theorem toClassic_ok : ∀ (t : LNTerm T) (vars : List T),
    wf vars.length t = true → ∃ c, toClassic t vars = .ok c := by
  intro t
  induction t with
  | var v =>
      intro vars h
      cases v with
      | bound k =>
          simp only [wf, decide_eq_true_eq] at h
          cases hv : vars[k]? with
          | none =>
              rw [List.getElem?_eq_none_iff] at hv
              omega
          | some w => exact ⟨.var w, by simp [toClassic, hv]⟩
      | free w => exact ⟨.var w, rfl⟩
  | abs p b ih =>
      intro vars h
      cases p with
      | bound _ => simp [wf] at h
      | free q =>
          simp only [wf] at h
          obtain ⟨c, hc⟩ := ih (q :: vars) (by simpa using h)
          exact ⟨.abs q c, by simp [toClassic, hc]⟩
  | app f a ihf iha =>
      intro vars h
      simp only [wf, Bool.and_eq_true] at h
      obtain ⟨cf, hcf⟩ := ihf vars h.1
      obtain ⟨ca, hca⟩ := iha vars h.2
      exact ⟨.app cf ca, by simp [toClassic, hcf, hca]⟩

theorem stepIter_wf : ∀ (k : Nat) (t : LNTerm T) (n : Nat),
    wf n t = true → wf n (stepIter k t) = true := by
  intro k
  induction k with
  | zero => intro t n h; exact h
  | succ k ih => intro t n h; exact ih _ n (betaReduceStep_wf t n h)

theorem rebind_wf (binds : T → Option (LNTerm T))
    (hb : ∀ v u, binds v = some u → wf 0 u = true) :
    ∀ (t : LNTerm T) (n : Nat), wf n t = true → wf n (rebind binds t) = true := by
  intro t
  induction t with
  | var v =>
      intro n h
      cases v with
      | bound k => exact h
      | free w =>
          simp only [rebind]
          cases hw : binds w with
          | none => exact h
          | some u => exact wf_mono u 0 n (by omega) (hb w u hw)
  | abs p b ih =>
      intro n h
      cases p with
      | bound _ => simp [wf] at h
      | free _ =>
          simp only [wf, rebind] at h ⊢
          exact ih (n + 1) h
  | app f a ihf iha =>
      intro n h
      simp only [wf, Bool.and_eq_true, rebind] at h ⊢
      exact ⟨ihf n h.1, iha n h.2⟩

theorem reduceLimit_le (s : LNTerm T → LNTerm T × Bool) :
    ∀ (n : Nat) (t : LNTerm T), (reduceLimit s t n).2 ≤ n := by
  intro n
  induction n with
  | zero => intro t; simp [reduceLimit]
  | succ n ih =>
      intro t
      cases hs : (s t).2 with
      | false => simp [reduceLimit, hs]
      | true =>
          have := ih (s t).1
          simp only [reduceLimit, hs, if_true]
          omega

theorem reduceLimit_count_full : ∀ (n : Nat) (t : LNTerm T),
    (∀ k, k < n → (betaReduceStep (stepIter k t)).2 = true) →
    (reduceLimit betaReduceStep t n).2 = n := by
  intro n
  induction n with
  | zero => intro t _; rfl
  | succ n ih =>
      intro t h
      have h0 : (betaReduceStep t).2 = true := h 0 (by omega)
      simp only [reduceLimit, h0, if_true]
      have := ih ((betaReduceStep t).1) (fun k hk => h (k + 1) (by omega))
      omega

theorem reduceLimit_stable : ∀ (n n' : Nat) (t : LNTerm T) (k : Nat),
    k ≤ n → n ≤ n' → (betaReduceStep (stepIter k t)).2 = false →
    reduceLimit betaReduceStep t n = reduceLimit betaReduceStep t n' := by
  intro n
  induction n with
  | zero =>
      intro n' t k hk _ hfix
      interval_cases k
      simp only [stepIter] at hfix
      cases n' with
      | zero => rfl
      | succ m =>
          have h1 : reduceLimit betaReduceStep t (m + 1) = ((betaReduceStep t).1, 0) := by
            simp [reduceLimit, hfix]
          rw [h1, betaReduceStep_false t hfix]
          rfl
  | succ n ih =>
      intro n' t k hk hn' hfix
      cases n' with
      | zero => omega
      | succ m =>
          cases hs : (betaReduceStep t).2 with
          | true =>
              cases k with
              | zero =>
                  simp only [stepIter] at hfix
                  rw [hfix] at hs
                  cases hs
              | succ j =>
                  simp only [stepIter] at hfix
                  have heq : reduceLimit betaReduceStep ((betaReduceStep t).1) n =
                      reduceLimit betaReduceStep ((betaReduceStep t).1) m :=
                    ih m ((betaReduceStep t).1) j (by omega) (by omega) hfix
                  simp only [reduceLimit, hs, if_true, heq]
          | false => simp [reduceLimit, hs]

theorem reduceLimit_wf : ∀ (m : Nat) (t : LNTerm T) (n : Nat),
    wf n t = true → wf n ((reduceLimit betaReduceStep t m).1) = true := by
  intro m
  induction m with
  | zero => intro t n h; exact h
  | succ m ih =>
      intro t n h
      cases hs : (betaReduceStep t).2 with
      | true =>
          simp only [reduceLimit, hs, if_true]
          exact ih ((betaReduceStep t).1) n (betaReduceStep_wf t n h)
      | false =>
          simp only [reduceLimit, hs]
          simpa using betaReduceStep_wf t n h

theorem string_append_rotate (a b c : String) : (a ++ b) ++ c = a ++ (b ++ c) :=
  String.append_assoc a b c

theorem string_space_open (r : String) : " (" ++ r = " " ++ ("(" ++ r) := by
  rw [← string_append_rotate]
  rfl

theorem string_close_space_open (r : String) : ") (" ++ r = ") " ++ ("(" ++ r) := by
  rw [← string_append_rotate]
  rfl

/-! ### Concrete terms used by the scenarios and counterexamples -/

/-- The divergent self-application `(λx. x x) (λx. x x)` as a classic term. -/
def omegaClassic : Term String :=
  .app (.abs "x" (.app (.var "x") (.var "x"))) (.abs "x" (.app (.var "x") (.var "x")))

/-- `λx. x x` in locally-nameless form. -/
def omegaHalfLN : LNTerm String :=
  .abs (.free "x") (.app (.var (.bound 0)) (.var (.bound 0)))

/-- `(λx. x x) (λx. x x)` in locally-nameless form. -/
def omegaLN : LNTerm String := .app omegaHalfLN omegaHalfLN

/-- `λf. λg. λx. f (g x)`, the already-normal term of display scenario 3. -/
def scenario3 : Term String :=
  .abs "f" (.abs "g" (.abs "x" (.app (.var "f") (.app (.var "g") (.var "x")))))

/-- `λx. λx. x`, the shadowing term of scenario 5. -/
def scenario5 : Term String := .abs "x" (.abs "x" (.var "x"))

/-- `((λy. λz. z) a) b`, a locally-nameless abstraction body that needs two
reduction steps to reach its normal form `b`. -/
def twoStepBody : LNTerm String :=
  .app (.app (.abs (.free "y") (.abs (.free "z") (.var (.bound 0)))) (.var (.free "a")))
    (.var (.free "b"))

/-- `(λx. ((λy. λz. z) a) b) c`: a redex whose abstraction body is
`twoStepBody`. -/
def twoStepRedex : LNTerm String := .app (.abs (.free "x") twoStepBody) (.var (.free "c"))

/-- `(λx. x) y`, a one-step redex. -/
def idAppY : Term String := .app (.abs "x" (.var "x")) (.var "y")

/-- A binding table mapping `x ↦ y` and `y ↦ z`, used to exhibit
one-level-deep resolution. -/
def chainBinds : String → Option (LNTerm String) := fun v =>
  if v = "x" then some (.var (.free "y"))
  else if v = "y" then some (.var (.free "z"))
  else none

/-! ### Claim theorems -/

/-- C1 (counterexample): the claim says that on `App(func, arg)` with `func`
an `Abs`, `Normal::beta_reduce_step` first FULLY reduces the abstraction's
body to normal form before opening it.  At `twoStepRedex` the body
`twoStepBody` reaches its normal form `b` only after two steps (witnessed by
`stepIter 2` being a fixpoint of the step function), yet the single
`beta_reduce_step` call leaves a result different from the body's normal
form opened with the argument: the code performs exactly one recursive step
on the body, not a full normalisation. -/
theorem c1_counterexample :
    (betaReduceStep twoStepRedex).2 = true ∧
    stepIter 2 twoStepBody = Term.var (Var.free "b") ∧
    (betaReduceStep (stepIter 2 twoStepBody)).2 = false ∧
    (betaReduceStep twoStepRedex).1 ≠
      openAt (stepIter 2 twoStepBody) 0 (Term.var (Var.free "c")) := by
  refine ⟨rfl, rfl, rfl, ?_⟩
  decide

/-- C1 (amended): on `App(func, arg)` where `func` is an `Abs`,
`Normal::beta_reduce_step` performs ONE recursive `beta_reduce_step` on the
abstraction's body (not a full normalisation), then opens the resulting body
with `arg` at depth 0, replaces the whole application with the opened body,
and reports exactly one beta-step (returns true). -/
theorem c1_step_on_redex : ∀ (T : Type) (p : Var T) (b a : LNTerm T),
    betaReduceStep (Term.app (Term.abs p b) a) =
      (openAt (betaReduceStep b).1 0 a, true) := by
  intro T p b a
  rfl

/-- C2: for every classic term `t`, converting to locally-nameless form and
back succeeds and yields `t` itself (the conversions perform no reduction
step: neither direction refers to the step function); in particular
`λx. λx. x` resolves the inner `x` to `Bound 0` (nearest binder wins) and
converts back to `λx. λx. x` exactly. -/
theorem c2_roundtrip :
    (∀ (T : Type) [DecidableEq T] (t : Term T),
        toClassic (toLocalNameless t []) [] = Except.ok t) ∧
    toLocalNameless scenario5 [] =
      Term.abs (Var.free "x") (Term.abs (Var.free "x") (Term.var (Var.bound 0))) ∧
    toClassic (toLocalNameless scenario5 []) [] = Except.ok scenario5 := by
  refine ⟨?_, rfl, rfl⟩
  intro T _ t
  exact toClassic_toLocalNameless t []

/-- C3 (counterexample): the claim says a `step` call returning true leaves
a term structurally different from the input; on `(λx. x x) (λx. x x)` the
step returns true yet the term is unchanged. -/
theorem c3_counterexample :
    (betaReduceStep omegaLN).2 = true ∧ (betaReduceStep omegaLN).1 = omegaLN := by
  exact ⟨rfl, by decide⟩

/-- C3 (amended): if a single `Normal::beta_reduce_step` call returns false
then the term after the call is structurally identical to the term before
it; when it returns true the term may nonetheless be structurally identical
(e.g. on `(λx. x x) (λx. x x)`). -/
theorem c3_false_means_unchanged : ∀ (T : Type) (t : LNTerm T),
    (betaReduceStep t).2 = false → (betaReduceStep t).1 = t := by
  intro T t h
  exact betaReduceStep_false t h

/-- Witness for C3: the step function reports false on the free variable
`x` and indeed leaves it unchanged. -/
theorem c3_false_means_unchanged_witness :
    (betaReduceStep (Term.var (Var.free "x") : LNTerm String)).2 = false ∧
    (betaReduceStep (Term.var (Var.free "x") : LNTerm String)).1 =
      Term.var (Var.free "x") :=
  ⟨rfl, c3_false_means_unchanged String (Term.var (Var.free "x")) rfl⟩

/-- C4: the bounded driver's count never exceeds the limit; when every one
of the first `n` iterations still finds a redex the count equals exactly
`n`; reducing `(λx. x x) (λx. x x)` with limit 5 returns count exactly 5
and a still-reducible term; and whenever the iteration reaches a fixpoint
of the step function within `n` steps, the drivers with limits `n` and
`n' > n` return identical results. -/
theorem c4_monotonic_bounding :
    (∀ (T : Type) (s : LNTerm T → LNTerm T × Bool) (t : LNTerm T) (n : Nat),
        (reduceLimit s t n).2 ≤ n) ∧
    (∀ (T : Type) (t : LNTerm T) (n : Nat),
        (∀ k, k < n → (betaReduceStep (stepIter k t)).2 = true) →
        (reduceLimit betaReduceStep t n).2 = n) ∧
    (betaReducedLimit omegaClassic 5 = Except.ok ⟨5, omegaClassic⟩ ∧
      (betaReduceStep (toLocalNameless omegaClassic [])).2 = true) ∧
    (∀ (T : Type) [DecidableEq T] (t : Term T) (k n n' : Nat),
        k ≤ n → n < n' →
        (betaReduceStep (stepIter k (toLocalNameless t []))).2 = false →
        betaReducedLimit t n = betaReducedLimit t n') := by
  refine ⟨?_, ?_, ⟨rfl, rfl⟩, ?_⟩
  · intro T s t n
    exact reduceLimit_le s n t
  · intro T t n h
    exact reduceLimit_count_full n t h
  · intro T _ t k n n' hk hnn hfix
    have h := reduceLimit_stable n n' (toLocalNameless t []) k hk (by omega) hfix
    simp only [betaReducedLimit, betaReducedLimitWith, h]

/-- Witness for C4: three iterations of the step function on the divergent
term all report a redex, so the count with limit 3 is exactly 3; and
`(λx. x) y` reaches a fixpoint after one step, so limits 1 and 2 agree. -/
theorem c4_monotonic_bounding_witness :
    (reduceLimit betaReduceStep omegaLN 3).2 = 3 ∧
    betaReducedLimit idAppY 1 = betaReducedLimit idAppY 2 :=
  ⟨c4_monotonic_bounding.2.1 String omegaLN 3 (by decide),
   c4_monotonic_bounding.2.2.2 String idAppY 1 1 2 (by decide) (by decide) (by decide)⟩

/-- C5: for every classic term, every term reachable from its
locally-nameless conversion by iterating the step function converts back to
classic form with `Ok` — the `InvalidVarIndex`/`InvalidAbsParam` branches,
and hence the `unwrap` inside the public drivers, are unreachable; in
particular the bounded driver always returns `Ok`. -/
theorem c5_conversion_never_fails :
    (∀ (T : Type) [DecidableEq T] (t : Term T) (k : Nat),
        ∃ c, toClassic (stepIter k (toLocalNameless t [])) [] = Except.ok c) ∧
    (∀ (T : Type) [DecidableEq T] (t : Term T) (n : Nat),
        ∃ r, betaReducedLimit t n = Except.ok r) := by
  constructor
  · intro T _ t k
    have hwf : wf 0 (toLocalNameless t []) = true := toLocalNameless_wf t []
    exact toClassic_ok _ [] (stepIter_wf k _ 0 hwf)
  · intro T _ t n
    have hwf : wf 0 (toLocalNameless t []) = true := toLocalNameless_wf t []
    obtain ⟨c, hc⟩ :=
      toClassic_ok ((reduceLimit betaReduceStep (toLocalNameless t []) n).1) []
        (reduceLimit_wf n _ 0 hwf)
    exact ⟨⟨(reduceLimit betaReduceStep (toLocalNameless t []) n).2, c⟩,
      by simp only [betaReducedLimit, betaReducedLimitWith, hc]⟩

/-- C6: well-formedness (every `Bound k` enclosed in at least `k + 1`
abstractions, every `Abs` binder slot `Free`) holds for every term produced
by classic → locally-nameless conversion under any binder stack, and is
preserved by `Normal::beta_reduce_step`, by `open` and `shifted` as the
engine invokes them (depth bounded by the available binders), and by
`rebind` whenever every term bound in the table is itself well-formed. -/
theorem c6_wf_invariant :
    (∀ (T : Type) [DecidableEq T] (t : Term T) (vars : List T),
        wf vars.length (toLocalNameless t vars) = true) ∧
    (∀ (T : Type) (t : LNTerm T) (n : Nat),
        wf n t = true → wf n ((betaReduceStep t).1) = true) ∧
    (∀ (T : Type) (t : LNTerm T) (n d : Nat) (r : LNTerm T),
        wf (n + 1) t = true → d ≤ n → wf (n - d) r = true →
        wf n (openAt t d r) = true) ∧
    (∀ (T : Type) (t : LNTerm T) (m d a : Nat),
        wf m t = true → wf (m + a) (shifted t d a) = true) ∧
    (∀ (T : Type) (binds : T → Option (LNTerm T)) (t : LNTerm T) (n : Nat),
        (∀ v u, binds v = some u → wf 0 u = true) → wf n t = true →
        wf n (rebind binds t) = true) := by
  refine ⟨?_, ?_, ?_, ?_, ?_⟩
  · intro T _ t vars; exact toLocalNameless_wf t vars
  · intro T t n h; exact betaReduceStep_wf t n h
  · intro T t n d r ht hd hr; exact openAt_wf t n d r ht hd hr
  · intro T t m d a h; exact shifted_wf t m d a h
  · intro T binds t n hb ht; exact rebind_wf binds hb t n ht

/-- Witness for C6: each preservation statement applied at a concrete
well-formed input — the step on `(λx. x x) (λx. x x)`, an `open` that
splices `a` for `Bound 0`, a `shifted` that raises `Bound 0` under one
binder, and a `rebind` against the table `x ↦ y, y ↦ z`. -/
theorem c6_wf_invariant_witness :
    wf 0 ((betaReduceStep omegaLN).1) = true ∧
    wf 0 (openAt (Term.var (Var.bound 0) : LNTerm String) 0
      (Term.var (Var.free "a"))) = true ∧
    wf 2 (shifted (Term.var (Var.bound 0) : LNTerm String) 0 1) = true ∧
    wf 0 (rebind chainBinds (Term.var (Var.free "x"))) = true := by
  refine ⟨?_, ?_, ?_, ?_⟩
  · exact c6_wf_invariant.2.1 String omegaLN 0 (by decide)
  · exact c6_wf_invariant.2.2.1 String (Term.var (Var.bound 0)) 0 0
      (Term.var (Var.free "a")) (by decide) (by omega) (by decide)
  · exact c6_wf_invariant.2.2.2.1 String (Term.var (Var.bound 0)) 1 0 1 (by decide)
  · refine c6_wf_invariant.2.2.2.2 String chainBinds (Term.var (Var.free "x")) 0
      ?_ (by decide)
    intro v u h
    by_cases hx : v = "x"
    · simp only [chainBinds, hx, if_true] at h
      cases h
      decide
    · by_cases hy : v = "y"
      · simp only [chainBinds, hx, hy, if_false, if_true] at h
        cases h
        decide
      · simp [chainBinds, hx, hy] at h

/-- C7: the substitution primitives do exactly what the code says — `open`
replaces a `Bound` index equal to `depth` by the replacement shifted by
`depth` at cutoff 0, decrements indices greater than `depth`, leaves
smaller indices and `Free` occurrences untouched, increments `depth` under
`Abs` and applies the same `depth` to both sides of `App`; `shifted`
increments every `Bound` index ≥ `depth` by `amount` and touches nothing
else. -/
theorem c7_open_shift_equations :
    (∀ (T : Type) (k d : Nat) (r : LNTerm T),
        openAt (Term.var (Var.bound k)) d r =
          if k = d then shifted r 0 d
          else if k > d then Term.var (Var.bound (k - 1))
          else Term.var (Var.bound k)) ∧
    (∀ (T : Type) (v : T) (d : Nat) (r : LNTerm T),
        openAt (Term.var (Var.free v)) d r = Term.var (Var.free v)) ∧
    (∀ (T : Type) (p : Var T) (b : LNTerm T) (d : Nat) (r : LNTerm T),
        openAt (Term.abs p b) d r = Term.abs p (openAt b (d + 1) r)) ∧
    (∀ (T : Type) (f a : LNTerm T) (d : Nat) (r : LNTerm T),
        openAt (Term.app f a) d r = Term.app (openAt f d r) (openAt a d r)) ∧
    (∀ (T : Type) (k d amt : Nat),
        shifted (Term.var (Var.bound k) : LNTerm T) d amt =
          Term.var (Var.bound (if k ≥ d then k + amt else k))) ∧
    (∀ (T : Type) (v : T) (d amt : Nat),
        shifted (Term.var (Var.free v)) d amt = Term.var (Var.free v)) ∧
    (∀ (T : Type) (p : Var T) (b : LNTerm T) (d amt : Nat),
        shifted (Term.abs p b) d amt = Term.abs p (shifted b (d + 1) amt)) ∧
    (∀ (T : Type) (f a : LNTerm T) (d amt : Nat),
        shifted (Term.app f a) d amt =
          Term.app (shifted f d amt) (shifted a d amt)) := by
  refine ⟨fun T k d r => rfl, fun T v d r => rfl, fun T p b d r => rfl,
    fun T f a d r => rfl, ?_, fun T v d amt => rfl, fun T p b d amt => rfl,
    fun T f a d amt => rfl⟩
  intro T k d amt
  by_cases h : k ≥ d <;> simp [shifted, h]

/-- C8: `rebind` leaves `Bound` indices untouched, replaces a `Free(name)`
whose name is in the table by the bound term verbatim (one level deep: the
spliced-in clone is not itself rewritten), leaves non-matching `Free` names
untouched, and descends into `Abs` bodies and both `App` sides; with the
table `x ↦ y, y ↦ z`, rebinding `x` yields `y`, not `z`. -/
theorem c8_rebind_behaviour :
    (∀ (T : Type) (binds : T → Option (LNTerm T)) (k : Nat),
        rebind binds (Term.var (Var.bound k)) = Term.var (Var.bound k)) ∧
    (∀ (T : Type) (binds : T → Option (LNTerm T)) (v : T) (u : LNTerm T),
        binds v = some u → rebind binds (Term.var (Var.free v)) = u) ∧
    (∀ (T : Type) (binds : T → Option (LNTerm T)) (v : T),
        binds v = none → rebind binds (Term.var (Var.free v)) = Term.var (Var.free v)) ∧
    (∀ (T : Type) (binds : T → Option (LNTerm T)) (p : Var T) (b : LNTerm T),
        rebind binds (Term.abs p b) = Term.abs p (rebind binds b)) ∧
    (∀ (T : Type) (binds : T → Option (LNTerm T)) (f a : LNTerm T),
        rebind binds (Term.app f a) = Term.app (rebind binds f) (rebind binds a)) ∧
    (rebind chainBinds (Term.var (Var.free "x")) = Term.var (Var.free "y") ∧
      Term.var (Var.free "y") ≠ (Term.var (Var.free "z") : LNTerm String)) := by
  refine ⟨fun T binds k => rfl, ?_, ?_, fun T binds p b => rfl,
    fun T binds f a => rfl, by decide, by decide⟩
  · intro T binds v u h
    simp [rebind, h]
  · intro T binds v h
    simp [rebind, h]

/-- Witness for C8: a matched name is replaced by its bound term verbatim
and an unmatched name is untouched, at the concrete table `x ↦ y, y ↦ z`. -/
theorem c8_rebind_behaviour_witness :
    rebind chainBinds (Term.var (Var.free "y")) = Term.var (Var.free "z") ∧
    rebind chainBinds (Term.var (Var.free "w")) = Term.var (Var.free "w") :=
  ⟨c8_rebind_behaviour.2.1 String chainBinds "y" (Term.var (Var.free "z")) (by decide),
   c8_rebind_behaviour.2.2.1 String chainBinds "w" (by decide)⟩

/-- C9: `Display` renders an abstraction as `λ<param>. <body>` and an
application as the function part and argument part separated by one space,
where the function part is parenthesised exactly when it is an abstraction
and the argument part exactly when it is an abstraction or an application
(so parentheses appear only around operands that are abstractions or
applications — minimal, not full, parenthesisation); `λf. λg. λx. f (g x)`
displays exactly as itself and the bounded driver reduces it in 0 steps. -/
theorem c9_display :
    (∀ (p : String) (b : Term String),
        dispTerm (Term.abs p b) = "λ" ++ p ++ ". " ++ dispTerm b) ∧
    (∀ (f a : Term String), dispTerm (Term.app f a) = dispFunc f ++ " " ++ dispArg a) ∧
    dispTerm scenario3 = "λf. λg. λx. f (g x)" ∧
    betaReducedLimit scenario3 1000 = Except.ok ⟨0, scenario3⟩ := by
  refine ⟨fun p b => rfl, ?_, rfl, rfl⟩
  intro f a
  cases f <;> cases a <;>
    simp [dispTerm, dispFunc, dispArg, isAbs, isAbsOrApp, string_append_rotate,
      string_space_open, string_close_space_open]

/-- C10: with limit 0 the predicate `count < limit` fails before any step
is attempted, for any strategy: the locally-nameless term is returned
untouched with count 0, and the public driver returns the original classic
term with count 0. -/
theorem c10_limit_zero :
    ∀ (T : Type) [DecidableEq T] (s : LNTerm T → LNTerm T × Bool) (t : Term T),
      reduceLimit s (toLocalNameless t []) 0 = (toLocalNameless t [], 0) ∧
      betaReducedLimitWith s t 0 = Except.ok ⟨0, t⟩ := by
  intro T _ s t
  refine ⟨rfl, ?_⟩
  simp only [betaReducedLimitWith, reduceLimit, toClassic_toLocalNameless t []]

end Lamb
